import Mathlib

/-!
Verification of the Caissa incremental NNUE evaluator and training-data
sampler, shallowly embedded from `src/src/backend/NeuralNetworkEvaluator.cpp`,
`src/Search.hpp` and the training-data loader translation unit
(`src/unnamed/part_000`).

Machine integers are modelled as `Nat`/`Int` (bitboards are 64-bit words,
kept below `2 ^ 64` by the well-formedness predicate); the `double` values of
the sampler CDF are modelled as exact rationals `ℚ`.
-/

namespace Caissa

/-- Piece colors, as in the backend's `Color` enum. -/
inductive Color where
  | white
  | black
deriving DecidableEq, Repr

/-- `GetOppositeColor` from the backend. -/
def GetOppositeColor : Color → Color
  | Color.white => Color.black
  | Color.black => Color.white

/-- Piece kinds; numeric values follow the backend enum
(`None = 0`, `Pawn = 1`, ..., `King = 6`). -/
inductive Piece where
  | pawn
  | knight
  | bishop
  | rook
  | queen
  | king
deriving DecidableEq, Repr

/-- Numeric value of a piece in the backend enum (`Pawn = 1`, ..., `King = 6`). -/
def Piece.toNat : Piece → Nat
  | Piece.pawn => 1
  | Piece.knight => 2
  | Piece.bishop => 3
  | Piece.rook => 4
  | Piece.queen => 5
  | Piece.king => 6

/-- Modelled from the spec: `Square::File()` of the backend — a square index
`0..63` has file `index mod 8`. -/
def Square.file (sq : Nat) : Nat := sq % 8

/-- Modelled from the spec: `Square::Rank()` of the backend — rank is
`index / 8`. -/
def Square.rank (sq : Nat) : Nat := sq / 8

/-- Modelled from the spec: `Square::FlippedFile()` — XOR `0b000111` on the
6-bit square index. -/
def Square.flippedFile (sq : Nat) : Nat := sq ^^^ 7

/-- Modelled from the spec: `Square::FlippedRank()` — XOR `0b111000` on the
6-bit square index. -/
def Square.flippedRank (sq : Nat) : Nat := sq ^^^ 56

/-- Modelled from the spec: `Bitboard::Iterate` visits the set bits of a
64-bit bitboard in increasing square order; this returns that square list. -/
def bitboardSquares (bb : Nat) : List Nat :=
  (List.range 64).filter (fun i => bb.testBit i)

/-- One side of a position: per-piece-type bitboards, as in the backend's
`SidePosition`. -/
structure SidePosition where
  pawns : Nat
  knights : Nat
  bishops : Nat
  rooks : Nat
  queens : Nat
  king : Nat
deriving DecidableEq, Repr

/-- Bitboard of one piece type of a side. -/
def SidePosition.board (s : SidePosition) : Piece → Nat
  | Piece.pawn => s.pawns
  | Piece.knight => s.knights
  | Piece.bishop => s.bishops
  | Piece.rook => s.rooks
  | Piece.queen => s.queens
  | Piece.king => s.king

/-- Modelled from the spec: `SidePosition::GetKingSquare()` — the square of
the side's (unique) king, i.e. the first set bit of the king bitboard. -/
def SidePosition.GetKingSquare (s : SidePosition) : Nat :=
  (bitboardSquares s.king).headD 0

/-- Number of pieces of one side (sum of bitboard popcounts). -/
def SidePosition.count (s : SidePosition) : Nat :=
  (bitboardSquares s.pawns).length + (bitboardSquares s.knights).length +
  (bitboardSquares s.bishops).length + (bitboardSquares s.rooks).length +
  (bitboardSquares s.queens).length + (bitboardSquares s.king).length

/-- A chess position: both sides' piece placement and the side to move. -/
structure Position where
  whites : SidePosition
  blacks : SidePosition
  sideToMove : Color
deriving DecidableEq, Repr

/-- `Position::GetSide` of the backend: `whites` for White, `blacks` for
Black. -/
def Position.GetSide (pos : Position) : Color → SidePosition
  | Color.white => pos.whites
  | Color.black => pos.blacks

/-- Modelled from the spec: `Position::GetNumPieces()` — total piece count of
the position (`refresh_cost` of the evaluator). -/
def Position.numPieces (pos : Position) : Nat :=
  pos.whites.count + pos.blacks.count

/-- `Position::GetNumPiecesExcludingKing()` analogue: total piece count minus
the two kings' bitboards. -/
def Position.numPiecesExcludingKing (pos : Position) : Nat :=
  (bitboardSquares pos.whites.pawns).length + (bitboardSquares pos.whites.knights).length +
  (bitboardSquares pos.whites.bishops).length + (bitboardSquares pos.whites.rooks).length +
  (bitboardSquares pos.whites.queens).length +
  (bitboardSquares pos.blacks.pawns).length + (bitboardSquares pos.blacks.knights).length +
  (bitboardSquares pos.blacks.bishops).length + (bitboardSquares pos.blacks.rooks).length +
  (bitboardSquares pos.blacks.queens).length

/-- Well-formedness of a side: bitboards fit in 64 bits and the king
bitboard holds exactly one square. -/
def SidePosition.WF (s : SidePosition) : Prop :=
  s.pawns < 2 ^ 64 ∧ s.knights < 2 ^ 64 ∧ s.bishops < 2 ^ 64 ∧
  s.rooks < 2 ^ 64 ∧ s.queens < 2 ^ 64 ∧ s.king < 2 ^ 64 ∧
  (bitboardSquares s.king).length = 1

instance (s : SidePosition) : Decidable s.WF := by
  unfold SidePosition.WF; infer_instance

/-- Well-formedness of a position: both sides are well-formed. -/
def Position.WF (pos : Position) : Prop :=
  pos.whites.WF ∧ pos.blacks.WF

instance (pos : Position) : Decidable pos.WF := by
  unfold Position.WF; infer_instance

/-- The piece of the given color and kind stands on square `sq`. -/
def pieceOn (pos : Position) (c : Color) (pc : Piece) (sq : Nat) : Prop :=
  ((pos.GetSide c).board pc).testBit sq

instance (pos : Position) (c : Color) (pc : Piece) (sq : Nat) :
    Decidable (pieceOn pos c pc sq) := by
  unfold pieceOn; infer_instance

/-! ## Feature encoder (`PositionToFeaturesVector`, lines 30-97) -/

/-- The `writePieceFeatures` lambda of `PositionToFeaturesVector`: one
feature index `numInputs + (square ^ bitFlipMask)` per set bit. -/
def writePieceFeatures (bb : Nat) (bitFlipMask : Nat) (numInputs : Nat) : List Nat :=
  (bitboardSquares bb).map (fun square => numInputs + (square ^^^ bitFlipMask))

/-- `PositionToFeaturesVector` (NeuralNetworkEvaluator.cpp:30-97): the sparse
feature indices of a position for one perspective, in emission order.
`numInputs` runs 0, 64, ..., 256 for own pawns..queens, 320 for the own-king
32-slot block, 352..608 for opponent pawns..queens and 672 for the opponent
king. -/
def PositionToFeaturesVector (pos : Position) (perspective : Color) : List Nat :=
  let whites := pos.GetSide perspective
  let blacks := pos.GetSide (GetOppositeColor perspective)
  let whiteKingSquare0 := whites.GetKingSquare
  let blackKingSquare0 := blacks.GetKingSquare
  -- flip file if the perspective side's king is on files e-h
  let whiteKingSquare1 :=
    if 4 ≤ Square.file whiteKingSquare0 then Square.flippedFile whiteKingSquare0
    else whiteKingSquare0
  let blackKingSquare1 :=
    if 4 ≤ Square.file whiteKingSquare0 then Square.flippedFile blackKingSquare0
    else blackKingSquare0
  let bitFlipMask1 := if 4 ≤ Square.file whiteKingSquare0 then 7 else 0
  -- flip rank for the black perspective
  let whiteKingSquare2 :=
    if perspective = Color.black then Square.flippedRank whiteKingSquare1
    else whiteKingSquare1
  let blackKingSquare2 :=
    if perspective = Color.black then Square.flippedRank blackKingSquare1
    else blackKingSquare1
  let bitFlipMask := if perspective = Color.black then bitFlipMask1 ||| 56 else bitFlipMask1
  writePieceFeatures whites.pawns bitFlipMask 0 ++
  writePieceFeatures whites.knights bitFlipMask 64 ++
  writePieceFeatures whites.bishops bitFlipMask 128 ++
  writePieceFeatures whites.rooks bitFlipMask 192 ++
  writePieceFeatures whites.queens bitFlipMask 256 ++
  [320 + (4 * Square.rank whiteKingSquare2 + Square.file whiteKingSquare2)] ++
  writePieceFeatures blacks.pawns bitFlipMask 352 ++
  writePieceFeatures blacks.knights bitFlipMask 416 ++
  writePieceFeatures blacks.bishops bitFlipMask 480 ++
  writePieceFeatures blacks.rooks bitFlipMask 544 ++
  writePieceFeatures blacks.queens bitFlipMask 608 ++
  [672 + blackKingSquare2]

/-- `DirtyPieceToFeatureIndex` (NeuralNetworkEvaluator.cpp:99-141): the
feature index of a single added/removed piece, which must match
`PositionToFeaturesVector`. -/
def DirtyPieceToFeatureIndex (piece : Piece) (pieceColor : Color) (square : Nat)
    (pos : Position) (perspective : Color) : Nat :=
  -- flip according to the perspective, then according to the king placement
  let relativeSquare0 :=
    if perspective = Color.black then Square.flippedRank square else square
  let relativeSquare :=
    if 4 ≤ Square.file (pos.GetSide perspective).GetKingSquare then
      Square.flippedFile relativeSquare0
    else relativeSquare0
  let index :=
    if piece = Piece.king ∧ pieceColor = perspective then
      5 * 64 + (4 * Square.rank relativeSquare + Square.file relativeSquare)
    else
      (piece.toNat - 1) * 64 + relativeSquare
  if pieceColor ≠ perspective then index + (32 + 5 * 64) else index

/-- `GetNetworkVariant` (NeuralNetworkEvaluator.cpp:143-149). -/
def GetNetworkVariant (pos : Position) : Nat :=
  let numPieceCountBuckets := 8
  let pieceCountBucket := min (pos.numPiecesExcludingKing / 4) (numPieceCountBuckets - 1)
  let queenPresenceBucket := if pos.whites.queens ≠ 0 ∨ pos.blacks.queens ≠ 0 then 1 else 0
  queenPresenceBucket * numPieceCountBuckets + pieceCountBucket

/-! ### Specification-side view of the encoder

`occurrences` lists the (piece, color, square) triples in the exact order the
encoder iterates them, and `emitFeatureM`/`emitFeature` give the index the
encoder writes for each triple.  The lemma `positionToFeaturesVector_eq_map`
relates them to `PositionToFeaturesVector` itself. -/

/-- The combined square-flip mask used by the encoder for a perspective:
7 when the perspective side's king is on files e-h, plus 56 for Black. -/
def featureFlipMask (pos : Position) (perspective : Color) : Nat :=
  let m1 :=
    if 4 ≤ Square.file (pos.GetSide perspective).GetKingSquare then 7 else 0
  if perspective = Color.black then m1 ||| 56 else m1

/-- Start offset of a non-king piece block (pawn 0, knight 64, ..., queen 256). -/
def pieceOffset : Piece → Nat
  | Piece.pawn => 0
  | Piece.knight => 64
  | Piece.bishop => 128
  | Piece.rook => 192
  | Piece.queen => 256
  | Piece.king => 320

/-- Feature index emitted for one piece occurrence, given a flip mask. -/
def emitFeatureM (mask : Nat) (perspective : Color) : Piece × Color × Nat → Nat
  | (Piece.king, c, sq) =>
    if c = perspective then
      320 + (4 * Square.rank (sq ^^^ mask) + Square.file (sq ^^^ mask))
    else 672 + (sq ^^^ mask)
  | (pc, c, sq) =>
    (pieceOffset pc + (if c = perspective then 0 else 352)) + (sq ^^^ mask)

/-- Feature index the encoder emits for one piece occurrence. -/
def emitFeature (pos : Position) (perspective : Color) (occ : Piece × Color × Nat) : Nat :=
  emitFeatureM (featureFlipMask pos perspective) perspective occ

/-- All piece occurrences of a position in the encoder's iteration order:
own pawns..queens, own king, opponent pawns..queens, opponent king. -/
def occurrences (pos : Position) (perspective : Color) : List (Piece × Color × Nat) :=
  let whites := pos.GetSide perspective
  let blacks := pos.GetSide (GetOppositeColor perspective)
  let opp := GetOppositeColor perspective
  (bitboardSquares whites.pawns).map (fun sq => (Piece.pawn, perspective, sq)) ++
  (bitboardSquares whites.knights).map (fun sq => (Piece.knight, perspective, sq)) ++
  (bitboardSquares whites.bishops).map (fun sq => (Piece.bishop, perspective, sq)) ++
  (bitboardSquares whites.rooks).map (fun sq => (Piece.rook, perspective, sq)) ++
  (bitboardSquares whites.queens).map (fun sq => (Piece.queen, perspective, sq)) ++
  [(Piece.king, perspective, whites.GetKingSquare)] ++
  (bitboardSquares blacks.pawns).map (fun sq => (Piece.pawn, opp, sq)) ++
  (bitboardSquares blacks.knights).map (fun sq => (Piece.knight, opp, sq)) ++
  (bitboardSquares blacks.bishops).map (fun sq => (Piece.bishop, opp, sq)) ++
  (bitboardSquares blacks.rooks).map (fun sq => (Piece.rook, opp, sq)) ++
  (bitboardSquares blacks.queens).map (fun sq => (Piece.queen, opp, sq)) ++
  [(Piece.king, opp, blacks.GetKingSquare)]

lemma getOppositeColor_ne (p : Color) : GetOppositeColor p ≠ p := by
  cases p <;> simp [GetOppositeColor]

lemma xor_seven_fiftysix : ((7 : Nat) ^^^ 56) = 63 := by decide

lemma or_seven_fiftysix : ((7 : Nat) ||| 56) = 63 := by decide

lemma or_zero_fiftysix : ((0 : Nat) ||| 56) = 56 := by decide

lemma flippedRank_flippedFile (sq : Nat) :
    Square.flippedRank (Square.flippedFile sq) = sq ^^^ 63 := by
  simp only [Square.flippedRank, Square.flippedFile, Nat.xor_assoc, xor_seven_fiftysix]

/-- The two sequential king-square flips of the encoder equal a single XOR
with the combined mask. -/
lemma seqFlips_eq_xor (cond : Prop) [Decidable cond] (p : Color) (sq : Nat) :
    (if p = Color.black then
        Square.flippedRank (if cond then Square.flippedFile sq else sq)
      else (if cond then Square.flippedFile sq else sq)) =
      sq ^^^ ((if p = Color.black then (if cond then 7 else 0) ||| 56
               else (if cond then 7 else 0)) : Nat) := by
  by_cases hc : cond <;> cases p <;>
    simp [hc, Square.flippedRank, Square.flippedFile, Nat.xor_assoc,
      xor_seven_fiftysix, or_seven_fiftysix, or_zero_fiftysix]

/-- `PositionToFeaturesVector` emits exactly `emitFeature` over the
occurrence list. -/
lemma positionToFeaturesVector_eq_map (pos : Position) (p : Color) :
    PositionToFeaturesVector pos p = (occurrences pos p).map (emitFeature pos p) := by
  unfold PositionToFeaturesVector occurrences writePieceFeatures
  simp only [List.map_append, List.map_map, List.map_cons, List.map_nil]
  cases p <;>
    by_cases hc : 4 ≤ Square.file (pos.GetSide Color.white).GetKingSquare <;>
    by_cases hcb : 4 ≤ Square.file (pos.GetSide Color.black).GetKingSquare <;>
    simp [emitFeature, emitFeatureM, featureFlipMask, pieceOffset, Function.comp_def,
      GetOppositeColor, hc, hcb, Square.flippedRank, Square.flippedFile, Nat.xor_assoc,
      xor_seven_fiftysix, or_seven_fiftysix, or_zero_fiftysix]

lemma mem_bitboardSquares {bb sq : Nat} :
    sq ∈ bitboardSquares bb ↔ sq < 64 ∧ bb.testBit sq = true := by
  simp [bitboardSquares, List.mem_filter, List.mem_range]

lemma testBit_lt_64 {bb sq : Nat} (hbb : bb < 2 ^ 64) (h : bb.testBit sq = true) :
    sq < 64 := by
  by_contra hge
  have hle : (2 : Nat) ^ 64 ≤ 2 ^ sq := Nat.pow_le_pow_right (by norm_num) (by omega)
  have : bb.testBit sq = false := Nat.testBit_eq_false_of_lt (lt_of_lt_of_le hbb hle)
  simp [this] at h

lemma board_lt_of_WF {s : SidePosition} (h : s.WF) (pc : Piece) :
    s.board pc < 2 ^ 64 := by
  obtain ⟨h1, h2, h3, h4, h5, h6, -⟩ := h
  cases pc <;> simpa [SidePosition.board]

/-- A well-formed side's king bitboard enumerates to exactly its king square. -/
lemma king_squares_eq {s : SidePosition} (h : s.WF) :
    bitboardSquares s.king = [s.GetKingSquare] := by
  obtain ⟨-, -, -, -, -, -, hlen⟩ := h
  match hk : bitboardSquares s.king with
  | [a] => simp [SidePosition.GetKingSquare, hk]
  | [] => rw [hk] at hlen; simp at hlen
  | a :: b :: l => rw [hk] at hlen; simp at hlen

/-- `DirtyPieceToFeatureIndex` computes, for every input, exactly the
per-occurrence index `emitFeature` of the feature encoder. -/
lemma dirtyPieceToFeatureIndex_eq_emitFeature (pos : Position) (p : Color)
    (pc : Piece) (c : Color) (sq : Nat) :
    DirtyPieceToFeatureIndex pc c sq pos p = emitFeature pos p (pc, c, sq) := by
  unfold DirtyPieceToFeatureIndex emitFeature emitFeatureM featureFlipMask
  cases p <;> cases c <;> cases pc <;>
    by_cases hc : 4 ≤ Square.file (pos.GetSide Color.white).GetKingSquare <;>
    by_cases hcb : 4 ≤ Square.file (pos.GetSide Color.black).GetKingSquare <;>
    simp [hc, hcb, Piece.toNat, pieceOffset, Square.flippedRank, Square.flippedFile,
      Nat.xor_assoc, xor_seven_fiftysix, or_seven_fiftysix, or_zero_fiftysix,
      Nat.add_comm, Nat.add_assoc, Nat.add_left_comm]

lemma eq_oppositeColor_of_ne {c p : Color} (h : c ≠ p) : c = GetOppositeColor p := by
  cases c <;> cases p <;> simp_all [GetOppositeColor]

/-- A piece standing on a square of a well-formed position appears in the
encoder's occurrence list. -/
lemma mem_occurrences {pos : Position} (p : Color) {pc : Piece} {c : Color} {sq : Nat}
    (hWF : pos.WF) (hOn : pieceOn pos c pc sq) :
    (pc, c, sq) ∈ occurrences pos p := by
  have hside : (pos.GetSide c).WF := by
    cases c
    · exact hWF.1
    · exact hWF.2
  have hbit : ((pos.GetSide c).board pc).testBit sq = true := hOn
  have hlt : sq < 64 := testBit_lt_64 (board_lt_of_WF hside pc) hbit
  have hmem : sq ∈ bitboardSquares ((pos.GetSide c).board pc) :=
    mem_bitboardSquares.mpr ⟨hlt, hbit⟩
  have hking : pc = Piece.king → sq = (pos.GetSide c).GetKingSquare := by
    intro hk
    subst hk
    rw [show (pos.GetSide c).board Piece.king = (pos.GetSide c).king from rfl,
      king_squares_eq hside] at hmem
    simpa using hmem
  by_cases hcp : c = p
  · subst hcp
    cases pc with
    | king =>
      rw [hking rfl]
      simp [occurrences]
    | pawn => simp_all [occurrences, SidePosition.board, List.mem_append, List.mem_map]
    | knight => simp_all [occurrences, SidePosition.board, List.mem_append, List.mem_map]
    | bishop => simp_all [occurrences, SidePosition.board, List.mem_append, List.mem_map]
    | rook => simp_all [occurrences, SidePosition.board, List.mem_append, List.mem_map]
    | queen => simp_all [occurrences, SidePosition.board, List.mem_append, List.mem_map]
  · have hco : c = GetOppositeColor p := eq_oppositeColor_of_ne hcp
    subst hco
    have hne := getOppositeColor_ne p
    cases pc with
    | king =>
      rw [hking rfl]
      simp [occurrences]
    | pawn => simp_all [occurrences, SidePosition.board, List.mem_append, List.mem_map]
    | knight => simp_all [occurrences, SidePosition.board, List.mem_append, List.mem_map]
    | bishop => simp_all [occurrences, SidePosition.board, List.mem_append, List.mem_map]
    | rook => simp_all [occurrences, SidePosition.board, List.mem_append, List.mem_map]
    | queen => simp_all [occurrences, SidePosition.board, List.mem_append, List.mem_map]

/-- C1: for every position, perspective, piece kind, piece color and square
on which that piece actually stands, `DirtyPieceToFeatureIndex` returns
exactly the index that `PositionToFeaturesVector` emits for that same piece
occurrence, and the index is a member of the feature vector iff the piece is
on that square. -/
theorem delta_index_matches_features (pos : Position) (p : Color)
    (pc : Piece) (c : Color) (sq : Nat) (hWF : pos.WF) (hOn : pieceOn pos c pc sq) :
    DirtyPieceToFeatureIndex pc c sq pos p = emitFeature pos p (pc, c, sq) ∧
    (DirtyPieceToFeatureIndex pc c sq pos p ∈ PositionToFeaturesVector pos p ↔
      pieceOn pos c pc sq) := by
  refine ⟨dirtyPieceToFeatureIndex_eq_emitFeature pos p pc c sq, fun _ => hOn, ?_⟩
  intro _
  rw [positionToFeaturesVector_eq_map, dirtyPieceToFeatureIndex_eq_emitFeature]
  exact List.mem_map_of_mem _ (mem_occurrences p hWF hOn)

/-- A minimal well-formed position: White king on a1, Black king on a8,
White to move. -/
def posKings : Position :=
  { whites := { pawns := 0, knights := 0, bishops := 0, rooks := 0, queens := 0, king := 1 }
    blacks := { pawns := 0, knights := 0, bishops := 0, rooks := 0, queens := 0,
                king := 2 ^ 56 }
    sideToMove := Color.white }

/-- Witness for C1 at a concrete position and piece occurrence. -/
theorem delta_index_matches_features_witness :
    DirtyPieceToFeatureIndex Piece.king Color.white 0 posKings Color.white
      = emitFeature posKings Color.white (Piece.king, Color.white, 0) ∧
    (DirtyPieceToFeatureIndex Piece.king Color.white 0 posKings Color.white
        ∈ PositionToFeaturesVector posKings Color.white ↔
      pieceOn posKings Color.white Piece.king 0) :=
  delta_index_matches_features posKings Color.white Piece.king Color.white 0
    (by decide) (by decide)

/-- C2 (amended): the encoder's square transform applies the file flip
(XOR `0b000111`) iff the **perspective side's** king is on files e-h, the
rank flip (XOR `0b111000`) iff the perspective is Black, and the two flips
combine by XOR; `PositionToFeaturesVector` emits every feature through this
combined mask. -/
theorem flip_mask_characterization (pos : Position) (p : Color) :
    featureFlipMask pos p =
      ((if 4 ≤ Square.file (pos.GetSide p).GetKingSquare then 7 else 0) ^^^
        (if p = Color.black then 56 else 0)) ∧
    (∀ sq, sq ^^^ featureFlipMask pos p =
      (if 4 ≤ Square.file (pos.GetSide p).GetKingSquare then
        Square.flippedFile (if p = Color.black then Square.flippedRank sq else sq)
      else (if p = Color.black then Square.flippedRank sq else sq))) ∧
    PositionToFeaturesVector pos p = (occurrences pos p).map (emitFeature pos p) := by
  have hrearrange : ∀ sq : Nat, 7 ^^^ (sq ^^^ 56) = sq ^^^ 63 := by
    intro sq
    rw [Nat.xor_comm 7, Nat.xor_assoc, show ((56 : Nat) ^^^ 7) = 63 from by decide]
  refine ⟨?_, ?_, positionToFeaturesVector_eq_map pos p⟩ <;>
  · cases p <;> by_cases hc : 4 ≤ Square.file (pos.GetSide Color.white).GetKingSquare <;>
      by_cases hcb : 4 ≤ Square.file (pos.GetSide Color.black).GetKingSquare <;>
      simp [featureFlipMask, hc, hcb, Square.flippedRank, Square.flippedFile,
        Nat.xor_assoc, Nat.xor_comm, xor_seven_fiftysix, or_seven_fiftysix,
        or_zero_fiftysix, hrearrange]

/-- A position with the White king on e1 (file 4), the Black king on a8 and
White to move. -/
def posKingE1 : Position :=
  { whites := { pawns := 0, knights := 0, bishops := 0, rooks := 0, queens := 0,
                king := 2 ^ 4 }
    blacks := { pawns := 0, knights := 0, bishops := 0, rooks := 0, queens := 0,
                king := 2 ^ 56 }
    sideToMove := Color.white }

/-- Counterexample to C2 as stated: here the side-to-move's (White's) king is
on file e (≥ 4), yet for the Black perspective the encoder applies no file
flip — it emits through mask 56 (rank flip only), not through mask
`7 ||| 56`. -/
theorem flip_mask_stm_counterexample :
    4 ≤ Square.file ((posKingE1.GetSide posKingE1.sideToMove).GetKingSquare) ∧
    PositionToFeaturesVector posKingE1 Color.black
      = (occurrences posKingE1 Color.black).map (emitFeatureM 56 Color.black) ∧
    PositionToFeaturesVector posKingE1 Color.black
      ≠ (occurrences posKingE1 Color.black).map (emitFeatureM (7 ||| 56) Color.black) := by
  decide

/-- Squares produced by `GetKingSquare` are always below 64. -/
lemma getKingSquare_lt_64 (s : SidePosition) : s.GetKingSquare < 64 := by
  unfold SidePosition.GetKingSquare
  match h : bitboardSquares s.king with
  | [] => simp
  | a :: l =>
    have ha : a ∈ bitboardSquares s.king := by rw [h]; exact List.mem_cons_self a l
    have := (mem_bitboardSquares.mp ha).1
    simpa using this

lemma featureFlipMask_le (pos : Position) (p : Color) : featureFlipMask pos p ≤ 63 := by
  unfold featureFlipMask
  cases p <;> by_cases hc : 4 ≤ Square.file (pos.GetSide Color.white).GetKingSquare <;>
    by_cases hcb : 4 ≤ Square.file (pos.GetSide Color.black).GetKingSquare <;>
    simp [hc, hcb, or_seven_fiftysix, or_zero_fiftysix]

/-- Every emitted per-occurrence index is below 736 when the occurrence's
square and the mask are in range. -/
lemma emitFeatureM_lt {mask : Nat} (hm : mask ≤ 63) (p : Color)
    (pc : Piece) (c : Color) {sq : Nat} (hsq : sq < 64) :
    emitFeatureM mask p (pc, c, sq) < 736 := by
  have hx : sq ^^^ mask < 64 := by
    have h64 : (64 : Nat) = 2 ^ 6 := by norm_num
    rw [h64] at hsq ⊢
    exact Nat.xor_lt_two_pow hsq (by omega)
  have hr : Square.rank (sq ^^^ mask) ≤ 7 := by
    unfold Square.rank; omega
  have hf : Square.file (sq ^^^ mask) ≤ 7 := by
    unfold Square.file; omega
  cases pc <;> cases c <;> cases p <;>
    simp [emitFeatureM, pieceOffset] <;> omega

/-- C7: with the perspective side's king (after the applicable flips) on
files a-d, every index emitted by `PositionToFeaturesVector` and every index
returned by `DirtyPieceToFeatureIndex` lies in `[0, 736)`. -/
theorem feature_indices_bounded (pos : Position) (p : Color)
    (hk : Square.file ((pos.GetSide p).GetKingSquare ^^^ featureFlipMask pos p) < 4) :
    (∀ f ∈ PositionToFeaturesVector pos p, f < 736) ∧
    (∀ pc c sq, sq < 64 → DirtyPieceToFeatureIndex pc c sq pos p < 736) := by
  constructor
  · intro f hf
    rw [positionToFeaturesVector_eq_map] at hf
    obtain ⟨⟨pc, c, sq⟩, hmem, rfl⟩ := List.mem_map.mp hf
    have hsq : sq < 64 := by
      unfold occurrences at hmem
      simp only [List.mem_append, List.mem_map, List.mem_singleton,
        Prod.mk.injEq] at hmem
      rcases hmem with
        ((((((((((h | h) | h) | h) | h) | h) | h) | h) | h) | h) | h) | h <;>
        first
        | (obtain ⟨x, hx, -, -, rfl⟩ := h
           exact (mem_bitboardSquares.mp hx).1)
        | (obtain ⟨-, -, rfl⟩ := h
           exact getKingSquare_lt_64 _)
    exact emitFeatureM_lt (featureFlipMask_le pos p) p pc c hsq
  · intro pc c sq hsq
    rw [dirtyPieceToFeatureIndex_eq_emitFeature]
    exact emitFeatureM_lt (featureFlipMask_le pos p) p pc c hsq

/-- Witness for C7 at a concrete position, piece and square. -/
theorem feature_indices_bounded_witness :
    DirtyPieceToFeatureIndex Piece.queen Color.black 63 posKings Color.white < 736 :=
  (feature_indices_bounded posKings Color.white (by decide)).2 Piece.queen Color.black 63
    (by decide)

/-- C9: for every well-formed position and perspective, the encoder writes
exactly one feature index per piece on the board (both kings included), so
its returned count equals the position's total piece count; in particular it
is at most 32 whenever the position has at most 32 pieces. -/
theorem features_count_eq_piece_count (pos : Position) (p : Color) (hWF : pos.WF) :
    (PositionToFeaturesVector pos p).length = pos.numPieces ∧
    (pos.numPieces ≤ 32 → (PositionToFeaturesVector pos p).length ≤ 32) := by
  obtain ⟨⟨-, -, -, -, -, -, hw⟩, ⟨-, -, -, -, -, -, hb⟩⟩ := hWF
  have hlen : (PositionToFeaturesVector pos p).length = pos.numPieces := by
    rw [positionToFeaturesVector_eq_map, List.length_map]
    unfold occurrences Position.numPieces SidePosition.count
    cases p <;>
      simp [Position.GetSide, GetOppositeColor, List.length_append] <;>
      omega
  exact ⟨hlen, fun h32 => hlen ▸ h32⟩

/-- Witness for C9 at a concrete position. -/
theorem features_count_eq_piece_count_witness :
    (PositionToFeaturesVector posKings Color.white).length = posKings.numPieces :=
  (features_count_eq_piece_count posKings Color.white (by decide)).1

/-! ## Pairwise cancellation of added/removed features
(`UpdateAccumulator`, NeuralNetworkEvaluator.cpp:273-285) -/

/-- The inner `j` loop: index of the first element of the removed list equal
to `x`. -/
def firstMatchIdx (x : Nat) : List Nat → Option Nat
  | [] => none
  | y :: ys => if y = x then some 0 else (firstMatchIdx x ys).map (· + 1)

/-- The `arr[k] = arr[--num]` swap-removal: overwrite entry `k` with the last
element and shrink the array by one. -/
def swapRemoveAt (l : List Nat) (k : Nat) : List Nat :=
  (l.set k (l.getLastD 0)).dropLast

/-- The cancellation scan: for each added index `i`, find the first equal
removed index; on a match swap-remove both entries and retry position `i`
(the C++ `i--`/`j--` dance), otherwise advance `i`.  The fuel argument is an
upper bound on the number of loop iterations. -/
def cancelAux : Nat → Nat → List Nat → List Nat → List Nat × List Nat
  | 0, _, a, r => (a, r)
  | fuel + 1, i, a, r =>
    if h : i < a.length then
      match firstMatchIdx a[i] r with
      | some j => cancelAux fuel i (swapRemoveAt a i) (swapRemoveAt r j)
      | none => cancelAux fuel (i + 1) a r
    else (a, r)

/-- The pairwise cancellation of lines 273-285, with sufficient fuel:
every iteration either advances `i` or shrinks the added list. -/
def cancelPairs (a r : List Nat) : List Nat × List Nat :=
  cancelAux (2 * a.length + r.length + 1) 0 a r

lemma firstMatchIdx_none {x : Nat} :
    ∀ {l : List Nat}, firstMatchIdx x l = none → x ∉ l := by
  intro l
  induction l with
  | nil => simp
  | cons y ys ih =>
    intro h
    by_cases hy : y = x
    · simp [firstMatchIdx, hy] at h
    · rw [firstMatchIdx, if_neg hy, Option.map_eq_none'] at h
      simp only [List.mem_cons, not_or]
      exact ⟨fun hxy => hy hxy.symm, ih h⟩

lemma firstMatchIdx_some {x : Nat} :
    ∀ {l : List Nat} {j : Nat}, firstMatchIdx x l = some j →
      ∃ hj : j < l.length, l.get ⟨j, hj⟩ = x := by
  intro l
  induction l with
  | nil => simp [firstMatchIdx]
  | cons y ys ih =>
    intro j h
    by_cases hy : y = x
    · rw [firstMatchIdx, if_pos hy] at h
      injection h with h
      subst h
      exact ⟨by simp, hy⟩
    · rw [firstMatchIdx, if_neg hy, Option.map_eq_some'] at h
      obtain ⟨j', hj', rfl⟩ := h
      obtain ⟨hlt, hget⟩ := ih hj'
      exact ⟨by simpa using hlt, by simpa using hget⟩

lemma getLastD_irrel {l : List Nat} (h : l ≠ []) (d1 d2 : Nat) :
    l.getLastD d1 = l.getLastD d2 := by
  rw [List.getLastD_eq_getLast?, List.getLastD_eq_getLast?,
    List.getLast?_eq_getLast l h]
  simp

lemma swapRemoveAt_length {l : List Nat} {k : Nat} :
    (swapRemoveAt l k).length = l.length - 1 := by
  simp [swapRemoveAt]

lemma swapRemoveAt_coe : ∀ (l : List Nat) (k : Nat) (h : k < l.length),
    (swapRemoveAt l k : Multiset Nat) = (l : Multiset Nat).erase (l.get ⟨k, h⟩) := by
  intro l
  induction l with
  | nil => intro k h; simp at h
  | cons x xs ih =>
    intro k h
    cases k with
    | zero =>
      cases xs with
      | nil => simp [swapRemoveAt]
      | cons y ys =>
        show ((((x :: y :: ys).getLastD 0 :: y :: ys)).dropLast : Multiset Nat) = _
        have hne : (y :: ys : List Nat) ≠ [] := by simp
        have hlast : (x :: y :: ys).getLastD 0 = (y :: ys).getLast hne := by
          rw [List.getLastD_cons, List.getLastD_eq_getLast?,
            List.getLast?_eq_getLast _ hne]
          rfl
        rw [List.dropLast_cons₂, hlast]
        have hsplit : (y :: ys).dropLast ++ [(y :: ys).getLast hne] = y :: ys :=
          List.dropLast_append_getLast hne
        calc ((y :: ys).getLast hne ::ₘ ((y :: ys).dropLast : Multiset Nat))
            = (((y :: ys).dropLast ++ [(y :: ys).getLast hne] : List Nat) : Multiset Nat) := by
              rw [Multiset.cons_coe]
              exact Multiset.coe_eq_coe.mpr (List.perm_append_singleton _ _).symm
          _ = ((y :: ys : List Nat) : Multiset Nat) := by rw [hsplit]
          _ = ((x :: y :: ys : List Nat) : Multiset Nat).erase x := by
              simp [Multiset.erase_cons_head]
          _ = _ := by simp
    | succ k =>
      have hk : k < xs.length := by simpa using h
      have hxs : xs ≠ [] := by
        intro hnil
        rw [hnil] at hk
        simp at hk
      have hset : (x :: xs).set (k + 1) ((x :: xs).getLastD 0)
          = x :: xs.set k (xs.getLastD 0) := by
        rw [List.getLastD_cons, getLastD_irrel hxs x 0]
        rfl
      have hsetne : xs.set k (xs.getLastD 0) ≠ [] := by
        intro hnil
        have hlen := congrArg List.length hnil
        simp only [List.length_set, List.length_nil] at hlen
        exact hxs (List.length_eq_zero.mp hlen)
      have hvmem : xs.get ⟨k, hk⟩ ∈ xs := List.get_mem xs k hk
      show ((((x :: xs).set (k + 1) ((x :: xs).getLastD 0)).dropLast : List Nat)
          : Multiset Nat) = _
      rw [hset, List.dropLast_cons_of_ne_nil hsetne]
      have hgoalget : (x :: xs).get ⟨k + 1, h⟩ = xs.get ⟨k, hk⟩ := rfl
      rw [hgoalget,
        show ((x :: (xs.set k (xs.getLastD 0)).dropLast : List Nat) : Multiset Nat)
          = x ::ₘ (((xs.set k (xs.getLastD 0)).dropLast : List Nat) : Multiset Nat)
          from rfl,
        show ((xs.set k (xs.getLastD 0)).dropLast : List Nat) = swapRemoveAt xs k
          from rfl,
        ih k hk,
        show ((x :: xs : List Nat) : Multiset Nat) = x ::ₘ (xs : Multiset Nat) from rfl]
      by_cases hv : xs.get ⟨k, hk⟩ = x
      · rw [hv, Multiset.erase_cons_head]
        have hxmem : x ∈ (xs : Multiset Nat) := by
          rw [← hv]
          exact Multiset.mem_coe.mpr hvmem
        rw [← hv] at hxmem ⊢
        exact Multiset.cons_erase hxmem
      · rw [Multiset.erase_cons_tail]
        exact fun heq => hv heq.symm


lemma mem_of_mem_swapRemoveAt {l : List Nat} {k x : Nat} (hk : k < l.length)
    (h : x ∈ swapRemoveAt l k) : x ∈ l := by
  have hms := swapRemoveAt_coe l k hk
  have : x ∈ (l : Multiset Nat).erase (l.get ⟨k, hk⟩) := by
    rw [← hms]
    exact Multiset.mem_coe.mpr h
  exact Multiset.mem_coe.mp (Multiset.mem_of_mem_erase this)

lemma getElem_swapRemoveAt {l : List Nat} {k i : Nat} (hk : k < l.length)
    (hik : i < k) (hi : i < (swapRemoveAt l k).length) :
    (swapRemoveAt l k).get ⟨i, hi⟩ = l.get ⟨i, by omega⟩ := by
  have hki : k ≠ i := by omega
  show ((l.set k (l.getLastD 0)).dropLast).get ⟨i, hi⟩ = _
  simp [hki]

lemma erase_sub_eq (s : Multiset Nat) (x : Nat) (D : Multiset Nat) :
    s.erase x - D = s - (x ::ₘ D) := by
  ext y
  by_cases hxy : y = x
  · subst hxy
    simp only [Multiset.count_sub, Multiset.count_erase_self,
      Multiset.count_cons_self]
    omega
  · simp [Multiset.count_sub, Multiset.count_erase_of_ne hxy,
      Multiset.count_cons_of_ne hxy]

lemma cons_le_of_le_erase {s D : Multiset Nat} {x : Nat} (hx : x ∈ s)
    (hD : D ≤ s.erase x) : x ::ₘ D ≤ s := by
  rw [← Multiset.cons_erase hx]
  exact Multiset.cons_le_cons x hD

/-- Invariant proof for the cancellation scan: with enough fuel, starting at
position `i` with the prefix below `i` already match-free, the scan returns
lists that share no value and that are the inputs minus one common deleted
multiset. -/
lemma cancelAux_spec : ∀ (fuel i : Nat) (a r : List Nat),
    2 * a.length + r.length - i < fuel →
    i ≤ a.length →
    (∀ i' (hi : i' < a.length), i' < i → a.get ⟨i', hi⟩ ∉ r) →
    (∀ x ∈ (cancelAux fuel i a r).1, x ∉ (cancelAux fuel i a r).2) ∧
    ∃ D : Multiset Nat,
      ((cancelAux fuel i a r).1 : Multiset Nat) = (a : Multiset Nat) - D ∧
      ((cancelAux fuel i a r).2 : Multiset Nat) = (r : Multiset Nat) - D ∧
      D ≤ (a : Multiset Nat) ∧ D ≤ (r : Multiset Nat) := by
  intro fuel
  induction fuel with
  | zero => intro i a r hfuel; omega
  | succ fuel ih =>
    intro i a r hfuel hi hprefix
    by_cases h : i < a.length
    · cases hmatch : firstMatchIdx a[i] r with
      | some j =>
        obtain ⟨hj, hrj⟩ := firstMatchIdx_some hmatch
        have heq : cancelAux (fuel + 1) i a r
            = cancelAux fuel i (swapRemoveAt a i) (swapRemoveAt r j) := by
          rw [cancelAux, dif_pos h, hmatch]
        have hlen_a : (swapRemoveAt a i).length = a.length - 1 := swapRemoveAt_length
        have hlen_r : (swapRemoveAt r j).length = r.length - 1 := swapRemoveAt_length
        have hrec := ih i (swapRemoveAt a i) (swapRemoveAt r j)
          (by rw [hlen_a, hlen_r]; omega)
          (by omega)
          (by
            intro i' hi' hlt
            rw [getElem_swapRemoveAt h hlt hi']
            intro hmem
            exact hprefix i' (by omega) hlt (mem_of_mem_swapRemoveAt hj hmem))
        rw [heq]
        obtain ⟨hdisj, D, h1, h2, hDa, hDr⟩ := hrec
        refine ⟨hdisj, a[i] ::ₘ D, ?_, ?_, ?_, ?_⟩
        · rw [h1, swapRemoveAt_coe a i h]
          exact erase_sub_eq _ _ _
        · rw [h2, swapRemoveAt_coe r j hj, hrj]
          exact erase_sub_eq _ _ _
        · refine cons_le_of_le_erase (Multiset.mem_coe.mpr (a.get_mem i h)) ?_
          rw [show (a[i] : Nat) = a.get ⟨i, h⟩ from rfl, ← swapRemoveAt_coe a i h]
          exact hDa
        · refine cons_le_of_le_erase (Multiset.mem_coe.mpr ?_) ?_
          · rw [← hrj]
            exact r.get_mem j hj
          · rw [← hrj, ← swapRemoveAt_coe r j hj]
            exact hDr
      | none =>
        have heq : cancelAux (fuel + 1) i a r = cancelAux fuel (i + 1) a r := by
          rw [cancelAux, dif_pos h, hmatch]
        have hrec := ih (i + 1) a r (by omega) (by omega)
          (by
            intro i' hi' hlt
            rcases Nat.lt_or_ge i' i with hlt' | hge
            · exact hprefix i' hi' hlt'
            · have hii : i' = i := by omega
              subst hii
              have hgg : a.get ⟨i', hi'⟩ = a[i'] := rfl
              rw [hgg]
              exact firstMatchIdx_none hmatch)
        rw [heq]
        exact hrec
    · have heq : cancelAux (fuel + 1) i a r = (a, r) := by
        rw [cancelAux, dif_neg h]
      rw [heq]
      refine ⟨?_, 0, by simp, by simp, Multiset.zero_le _, Multiset.zero_le _⟩
      intro x hx
      obtain ⟨⟨i', hi'⟩, rfl⟩ := List.mem_iff_get.mp hx
      have hi'' : i' < a.length := hi'
      exact hprefix i' hi'' (by omega)

/-- C8: after the pairwise cancellation scan of `UpdateAccumulator`, the
added and removed lists share no common value; cancellation only deleted
matched equal pairs (one element from each list, the same multiset `D` from
both sides), so the multiset difference added-minus-removed is unchanged. -/
theorem cancellation_scan_sound (a r : List Nat) :
    (∀ x ∈ (cancelPairs a r).1, x ∉ (cancelPairs a r).2) ∧
    (∃ D : Multiset Nat,
      ((cancelPairs a r).1 : Multiset Nat) = (a : Multiset Nat) - D ∧
      ((cancelPairs a r).2 : Multiset Nat) = (r : Multiset Nat) - D ∧
      D ≤ (a : Multiset Nat) ∧ D ≤ (r : Multiset Nat)) ∧
    ((cancelPairs a r).1 : Multiset Nat) - ((cancelPairs a r).2 : Multiset Nat)
      = (a : Multiset Nat) - (r : Multiset Nat) := by
  unfold cancelPairs
  obtain ⟨hdisj, D, h1, h2, hDa, hDr⟩ :=
    cancelAux_spec (2 * a.length + r.length + 1) 0 a r (by omega) (Nat.zero_le _)
      (fun i' hi' hlt => absurd hlt (Nat.not_lt_zero i'))
  refine ⟨hdisj, ⟨D, h1, h2, hDa, hDr⟩, ?_⟩
  rw [h1, h2]
  ext y
  have hca := Multiset.le_iff_count.mp hDa y
  have hcr := Multiset.le_iff_count.mp hDr y
  simp only [Multiset.count_sub]
  omega

/-! ## Incremental evaluator model
(`UpdateAccumulator` and `NNEvaluator::Evaluate`, NeuralNetworkEvaluator.cpp:227-462).

The parent-pointer chain of `NodeInfo` is modelled as a list whose head is
the node being evaluated and whose tail is its ancestor chain; index 1 is
`node.parentNode` and `Option Nat` chain indices stand for (possibly null)
`NodeInfo*` pointers.  Accumulator values are an abstract type `Acc` and the
network's kernels are opaque functions; every performed accumulator
operation is recorded in a trace. -/

/-- A board delta entry (`DirtyPiece`); an invalid square is `none`. -/
structure DirtyPiece where
  piece : Piece
  color : Color
  fromSquare : Option Nat
  toSquare : Option Nat

/-- Per-node NN state (`NNEvaluatorContext`): per-perspective accumulator
and dirty flag, the dirty-piece list, and the cached score. -/
structure NNEvaluatorContext (Acc : Type) where
  accumulator : Color → Acc
  accumDirty : Color → Bool
  dirtyPieces : List DirtyPiece
  nnScore : Int

/-- A search node (`NodeInfo`): its position plus NN context. -/
structure NodeInfo (Acc : Type) where
  position : Position
  nnContext : NNEvaluatorContext Acc

/-- Modelled from the spec: the sentinel `InvalidValue` marking an
uncomputed cached score (INT32_MIN). -/
def InvalidValue : Int := -2147483648

/-- The opaque network: `Accumulator::Refresh`, `Accumulator::Update` (with
the weights folded in) and `PackedNeuralNetwork::Run`. -/
structure Network (Acc : Type) where
  refresh : List Nat → Acc
  update : Acc → List Nat → List Nat → Acc
  run : Acc → Acc → Nat → Int

/-- One recorded accumulator/network operation. -/
inductive NetOp where
  | refresh (target : Nat)
  | update (target : Nat) (prev : Nat)
  | copy (target : Nat) (prev : Nat)
  | run (variant : Nat)
deriving DecidableEq, Repr

/-- The a-d files mask `0x0F0F0F0F0F0F0F0F` (lines 370). -/
def leftFilesMask : Nat := 0x0F0F0F0F0F0F0F0F

/-- `(pos.GetSide(p).king & leftFilesMask) != 0`: whether the side's king is
on files a-d. -/
def kingSide (pos : Position) (p : Color) : Bool :=
  ((pos.GetSide p).king &&& leftFilesMask) != 0

/-- Overwrite one perspective's accumulator and clear its dirty flag. -/
def NNEvaluatorContext.setAccum {Acc : Type} (ctx : NNEvaluatorContext Acc)
    (p : Color) (v : Acc) : NNEvaluatorContext Acc :=
  { ctx with
    accumulator := fun c => if c = p then v else ctx.accumulator c
    accumDirty := fun c => if c = p then false else ctx.accumDirty c }

/-- The ancestor walk of `NNEvaluator::Evaluate` (lines 380-420): starting
from the node itself, accumulate the dirty-piece counts; stop with `none`
when the update cost exceeds the refresh cost or the king crossed the
left/right files boundary, and return the index of the first node whose
accumulator is not dirty. -/
def findPrevAccumNode {Acc : Type} (p : Color) (refreshCost : Nat)
    (kingSideHere : Bool) : List (NodeInfo Acc) → Nat → Nat → Option Nat
  | [], _, _ => none
  | n :: rest, updateCost, idx =>
    let updateCost := updateCost + n.nnContext.dirtyPieces.length
    if refreshCost < updateCost then none
    else if kingSide n.position p ≠ kingSideHere then none
    else if n.nnContext.accumDirty p = false then some idx
    else findPrevAccumNode p refreshCost kingSideHere rest updateCost (idx + 1)

/-- `UpdateAccumulator` (lines 227-355) on the chain model: update the
accumulator of `chain[targetIdx]` from `chain[prevIdx]` (or refresh it from
the position when `prevIdx` is `none`), reading the dirty pieces of every
node from the target up to (excluding) the previous node, indexing them
against the **target** node's position, and cancelling matched added/removed
pairs.  Returns the new chain and the performed operation. -/
def UpdateAccumulator {Acc : Type} (net : Network Acc) (chain : List (NodeInfo Acc))
    (targetIdx : Nat) (prevIdx : Option Nat) (p : Color) :
    List (NodeInfo Acc) × NetOp :=
  match chain[targetIdx]? with
  | none => (chain, NetOp.refresh targetIdx)
  | some tnode =>
    match prevIdx with
    | none =>
      -- refresh accumulator (lines 329-343)
      let features := PositionToFeaturesVector tnode.position p
      (chain.set targetIdx
        { tnode with nnContext := tnode.nnContext.setAccum p (net.refresh features) },
       NetOp.refresh targetIdx)
    | some pidx =>
      match chain[pidx]? with
      | none => (chain, NetOp.refresh targetIdx)
      | some pnode =>
        -- build the added/removed feature lists (lines 244-271)
        let walked := (chain.drop targetIdx).take (pidx - targetIdx)
        let addedFeatures := walked.flatMap (fun n =>
          n.nnContext.dirtyPieces.filterMap (fun dp =>
            dp.toSquare.map (fun sq =>
              DirtyPieceToFeatureIndex dp.piece dp.color sq tnode.position p)))
        let removedFeatures := walked.flatMap (fun n =>
          n.nnContext.dirtyPieces.filterMap (fun dp =>
            dp.fromSquare.map (fun sq =>
              DirtyPieceToFeatureIndex dp.piece dp.color sq tnode.position p)))
        let canceled := cancelPairs addedFeatures removedFeatures
        if canceled.1 = [] ∧ canceled.2 = [] then
          (chain.set targetIdx
            { tnode with nnContext :=
                tnode.nnContext.setAccum p (pnode.nnContext.accumulator p) },
           NetOp.copy targetIdx pidx)
        else
          (chain.set targetIdx
            { tnode with nnContext :=
                (tnode.nnContext.setAccum p
                  (net.update (pnode.nnContext.accumulator p) canceled.1 canceled.2)) },
           NetOp.update targetIdx pidx)

/-- The per-perspective accumulator resolution of `NNEvaluator::Evaluate`
(lines 377-440): find the nearest usable ancestor, then do nothing (cached),
a two-stage update through the parent, or a single-stage update/refresh. -/
def ResolveAccumulators {Acc : Type} (net : Network Acc)
    (chain : List (NodeInfo Acc)) (p : Color) : List (NodeInfo Acc) × List NetOp :=
  match chain with
  | [] => ([], [])
  | node :: rest =>
    let refreshCost := node.position.numPieces
    let kingSideHere := kingSide node.position p
    let prev := findPrevAccumNode p refreshCost kingSideHere (node :: rest) 0 0
    if prev = some 0 then
      -- accumulator is already up to date
      (node :: rest, [])
    else
      match rest with
      | [] =>
        let ur := UpdateAccumulator net (node :: rest) 0 prev p
        (ur.1, [ur.2])
      | parent :: _ =>
        if prev ≠ none ∧ prev ≠ some 1 ∧ parent.nnContext.accumDirty p = true then
          -- two-stage update: update the parent first, then the node
          let u1 := UpdateAccumulator net (node :: rest) 1 prev p
          let u2 := UpdateAccumulator net u1.1 0 (some 1) p
          (u2.1, [u1.2, u2.2])
        else
          let ur := UpdateAccumulator net (node :: rest) 0 prev p
          (ur.1, [ur.2])

/-- `NNEvaluator::Evaluate` (lines 357-462) on the chain model: fast path on
a cached score, otherwise resolve both perspectives' accumulators, run the
network on the node's two accumulators, and cache the output. -/
def NNEvaluator.Evaluate {Acc : Type} (net : Network Acc)
    (chain : List (NodeInfo Acc)) : Int × List (NodeInfo Acc) × List NetOp :=
  match chain with
  | [] => (InvalidValue, [], [])
  | node :: rest =>
    if node.nnContext.nnScore ≠ InvalidValue then
      (node.nnContext.nnScore, node :: rest, [])
    else
      let r1 := ResolveAccumulators net (node :: rest) Color.white
      let r2 := ResolveAccumulators net r1.1 Color.black
      match r2.1 with
      | [] => (InvalidValue, [], r1.2 ++ r2.2)
      | node2 :: rest2 =>
        let stm := node.position.sideToMove
        let nnOutput := net.run (node2.nnContext.accumulator stm)
          (node2.nnContext.accumulator (GetOppositeColor stm))
          (GetNetworkVariant node.position)
        (nnOutput,
         { node2 with nnContext := { node2.nnContext with nnScore := nnOutput } } :: rest2,
         r1.2 ++ r2.2 ++ [NetOp.run (GetNetworkVariant node.position)])

/-- C10: when the node carries a cached score (`nnScore` is not the invalid
sentinel), `NNEvaluator::Evaluate` returns that cached value and leaves the
whole chain — accumulators, dirty flags, dirty-piece lists and the cached
score itself — unchanged, invoking no network operation. -/
theorem evaluate_cached_score_frame {Acc : Type} (net : Network Acc)
    (node : NodeInfo Acc) (rest : List (NodeInfo Acc))
    (h : node.nnContext.nnScore ≠ InvalidValue) :
    NNEvaluator.Evaluate net (node :: rest)
      = (node.nnContext.nnScore, node :: rest, []) := by
  simp only [NNEvaluator.Evaluate]
  rw [if_pos h]

/-- A trivial abstract network over `Nat` accumulators. -/
def netZero : Network Nat :=
  { refresh := fun _ => 0, update := fun a _ _ => a, run := fun _ _ _ => 0 }

/-- A node whose NN context caches the score 5. -/
def nodeCachedScore : NodeInfo Nat :=
  { position := posKings
    nnContext :=
      { accumulator := fun _ => 0, accumDirty := fun _ => true,
        dirtyPieces := [], nnScore := 5 } }

/-- Witness for C10 at a concrete network and node. -/
theorem evaluate_cached_score_frame_witness :
    NNEvaluator.Evaluate netZero [nodeCachedScore]
      = (nodeCachedScore.nnContext.nnScore, [nodeCachedScore], []) :=
  evaluate_cached_score_frame netZero nodeCachedScore [] (by decide)

/-- C4 (amended): per perspective, `NNEvaluator::Evaluate` performs **no**
accumulator operation exactly when the walk found the node itself
(`prev_accum_node == node`); it performs the two-stage update (parent first,
then the node) exactly when additionally the parent is non-null,
`prev_accum_node` is non-null, the parent differs from `prev_accum_node`,
and the parent's accumulator is dirty; in every remaining case it performs a
single direct update from `prev_accum_node` (a full refresh when
`prev_accum_node` is null). -/
theorem evaluate_update_dispatch {Acc : Type} (net : Network Acc)
    (node : NodeInfo Acc) (rest : List (NodeInfo Acc)) (p : Color) :
    ((ResolveAccumulators net (node :: rest) p).2 = [] ↔
      findPrevAccumNode p node.position.numPieces (kingSide node.position p)
        (node :: rest) 0 0 = some 0) ∧
    ((ResolveAccumulators net (node :: rest) p).2.length = 2 ↔
      (findPrevAccumNode p node.position.numPieces (kingSide node.position p)
          (node :: rest) 0 0 ≠ some 0 ∧
       findPrevAccumNode p node.position.numPieces (kingSide node.position p)
          (node :: rest) 0 0 ≠ none ∧
       findPrevAccumNode p node.position.numPieces (kingSide node.position p)
          (node :: rest) 0 0 ≠ some 1 ∧
       ∃ parent rest2, rest = parent :: rest2 ∧
         parent.nnContext.accumDirty p = true)) ∧
    ((ResolveAccumulators net (node :: rest) p).2.length = 1 ↔
      (findPrevAccumNode p node.position.numPieces (kingSide node.position p)
          (node :: rest) 0 0 ≠ some 0 ∧
       ¬(findPrevAccumNode p node.position.numPieces (kingSide node.position p)
            (node :: rest) 0 0 ≠ none ∧
         findPrevAccumNode p node.position.numPieces (kingSide node.position p)
            (node :: rest) 0 0 ≠ some 1 ∧
         ∃ parent rest2, rest = parent :: rest2 ∧
           parent.nnContext.accumDirty p = true))) := by
  cases rest with
  | nil =>
    by_cases h0 : findPrevAccumNode p node.position.numPieces
        (kingSide node.position p) [node] 0 0 = some 0 <;>
      simp [ResolveAccumulators, h0]
  | cons parent rest2 =>
    by_cases h0 : findPrevAccumNode p node.position.numPieces
        (kingSide node.position p) (node :: parent :: rest2) 0 0 = some 0
    · simp [ResolveAccumulators, h0]
    · by_cases hcond : findPrevAccumNode p node.position.numPieces
          (kingSide node.position p) (node :: parent :: rest2) 0 0 ≠ none ∧
          findPrevAccumNode p node.position.numPieces (kingSide node.position p)
            (node :: parent :: rest2) 0 0 ≠ some 1 ∧
          parent.nnContext.accumDirty p = true <;>
        simp [ResolveAccumulators, h0, hcond] <;>
        tauto

/-- A node with a valid (not dirty) accumulator and no cached score. -/
def nodeCleanAccum : NodeInfo Nat :=
  { position := posKings
    nnContext :=
      { accumulator := fun _ => 0, accumDirty := fun _ => false,
        dirtyPieces := [], nnScore := InvalidValue } }

/-- A node with a dirty accumulator and no cached score. -/
def nodeDirtyAccum : NodeInfo Nat :=
  { position := posKings
    nnContext :=
      { accumulator := fun _ => 0, accumDirty := fun _ => true,
        dirtyPieces := [], nnScore := InvalidValue } }

/-- Counterexample to C4 as stated: the node's parent is non-null, dirty and
different from `prev_accum_node`, yet the evaluator performs no two-stage
update (no update at all): the walk found the node itself, and the code's
`prevAccumNode == &node` branch takes precedence. -/
theorem evaluate_update_dispatch_counterexample :
    findPrevAccumNode Color.white (Position.numPieces posKings)
      (kingSide posKings Color.white) [nodeCleanAccum, nodeDirtyAccum] 0 0
      = some 0 ∧
    nodeDirtyAccum.nnContext.accumDirty Color.white = true ∧
    (some 0 : Option Nat) ≠ some 1 ∧
    (ResolveAccumulators netZero [nodeCleanAccum, nodeDirtyAccum] Color.white).2
      = [] := by
  refine ⟨by decide, by decide, by decide, by decide⟩

/-! ## Training-data sampler (`src/unnamed/part_000`) -/

/-- `Search::CheckmateValue` (src/Search.hpp:32). -/
def CheckmateValue : Int := -1000000

/-- `Game::Score` labels of a training record. -/
inductive WdlScore where
  | whiteWins
  | draw
  | blackWins
deriving DecidableEq, Repr

/-- The fields of a `PositionEntry` the rejection filter reads: `score`,
`wdlScore`, the packed position's `halfMoveCount`, `moveCount` and
`occupied` bitboard. -/
structure PositionEntry where
  score : Int
  wdlScore : WdlScore
  halfMoveCount : Nat
  moveCount : Nat
  occupied : Nat
deriving DecidableEq, Repr

/-- `outEntry.pos.occupied.Count()`. -/
def PositionEntry.numPieces (e : PositionEntry) : Nat :=
  (bitboardSquares e.occupied).length

/-- Outcomes of the Bernoulli draws (and of the external king-bucket
computation) of one iteration of `FetchNextPosition`; each probabilistic
filter is abstracted by the Boolean result of its draw. -/
structure FetchDraws where
  jitter : Bool
  drawHmc : Bool
  earlyMove : Bool
  tiny4 : Bool
  crowded : Bool
  kingPlacement : Bool
  bucketsMatch : Bool
  wdlSkip : Bool
  evalSkip : Bool
deriving DecidableEq, Repr

/-- The rejection filter of `InputFileContext::FetchNextPosition`
(lines 132-233) applied to one read entry, in source order: the mate-score
guard first, then the per-stream jitter, drawn-game half-move-counter skip,
early-move skip, piece-count skips (`≤ 3` always, `≤ 4` and crowded via
draws; the crowded Bernoulli parameter `((n − 26)/25)²` is positive iff
`n ≠ 26`), the king-bucket/king-placement filter, the WDL skip and the
eval skip.  `kingBucketNonneg` is `kingBucket ≥ 0`. -/
def InputFileContext.acceptEntry (kingBucketNonneg : Bool) (e : PositionEntry)
    (d : FetchDraws) : Bool :=
  -- skip invalid scores
  if CheckmateValue ≤ e.score ∨ e.score ≤ -CheckmateValue then false
  -- constant skipping
  else if d.jitter then false
  -- skip drawn games based on the half-move counter
  else if e.wdlScore = WdlScore.draw ∧ d.drawHmc then false
  -- skip early moves
  else if e.moveCount < 10 ∧ d.earlyMove then false
  -- skip based on piece count
  else if e.numPieces ≤ 3 then false
  else if e.numPieces ≤ 4 ∧ d.tiny4 then false
  else if e.numPieces ≠ 26 ∧ d.crowded then false
  -- filter by king bucket, or skip based on king placement
  else if (if kingBucketNonneg then ¬ d.bucketsMatch else d.kingPlacement) then false
  -- skip based on WDL
  else if d.wdlSkip then false
  -- skip based on eval
  else if d.evalSkip then false
  else true

/-- The retry loop of `InputFileContext::FetchNextPosition`, over the stream
of entries successive reads yield (the silent rewind folded into the
stream), paired with that iteration's draws: the first accepted entry is
yielded, `none` on stream end. -/
def InputFileContext.FetchNextPosition (kingBucketNonneg : Bool)
    (stream : List (PositionEntry × FetchDraws)) : Option PositionEntry :=
  (stream.find? (fun ed =>
    InputFileContext.acceptEntry kingBucketNonneg ed.1 ed.2)).map (fun ed => ed.1)

/-- C6: every position entry whose score satisfies `|score| ≥
CheckmateValue` is rejected by the sampler's mate-score guard — for every
random draw outcome, regardless of all other filters — and is never yielded
by `FetchNextPosition`. -/
theorem mate_score_entries_rejected (kingBucketNonneg : Bool) (e : PositionEntry)
    (hmate : CheckmateValue ≤ |e.score|) :
    (∀ d, InputFileContext.acceptEntry kingBucketNonneg e d = false) ∧
    (∀ stream, InputFileContext.FetchNextPosition kingBucketNonneg stream
      ≠ some e) := by
  have hguard : CheckmateValue ≤ e.score ∨ e.score ≤ -CheckmateValue := by
    unfold CheckmateValue
    omega
  have hrej : ∀ d, InputFileContext.acceptEntry kingBucketNonneg e d = false := by
    intro d
    unfold InputFileContext.acceptEntry
    rw [if_pos hguard]
  refine ⟨hrej, ?_⟩
  intro stream hsome
  unfold InputFileContext.FetchNextPosition at hsome
  obtain ⟨ed, hfind, hed⟩ := Option.map_eq_some'.mp hsome
  have hacc := List.find?_some hfind
  rw [hed] at hacc
  rw [hrej ed.2] at hacc
  exact Bool.false_ne_true hacc

/-- The entry of scenario E7: `score = CheckmateValue + 0`. -/
def mateEntry : PositionEntry :=
  { score := CheckmateValue, wdlScore := WdlScore.draw, halfMoveCount := 0,
    moveCount := 20, occupied := 0xFFFF }

/-- One fixed draw outcome (all Bernoulli draws come up "keep"). -/
def keepDraws : FetchDraws :=
  { jitter := false, drawHmc := false, earlyMove := false, tiny4 := false,
    crowded := false, kingPlacement := false, bucketsMatch := true,
    wdlSkip := false, evalSkip := false }

/-- Witness for C6 on a concrete mate-scored entry. -/
theorem mate_score_entries_rejected_witness :
    InputFileContext.acceptEntry true mateEntry keepDraws = false ∧
    InputFileContext.FetchNextPosition true [(mateEntry, keepDraws)]
      ≠ some mateEntry :=
  ⟨(mate_score_entries_rejected true mateEntry (by decide)).1 keepDraws,
   (mate_score_entries_rejected true mateEntry (by decide)).2 [(mateEntry, keepDraws)]⟩

/-! ## CDF binary search (`TrainingDataLoader::SampleInputFileIndex`,
lines 73-93) -/

/-- The binary-search while loop: `low`/`high` bounds, probing
`mid = (low + high) / 2` and moving `low` past `mid` when
`u ≥ mCDF[mid]`.  Each iteration strictly shrinks `high - low`, so the
fuel argument bounds the iteration count. -/
def sampleSearchGo (cdf : List ℚ) (u : ℚ) : Nat → Nat → Nat → Nat
  | 0, low, _ => low
  | fuel + 1, low, high =>
    if low < high then
      let mid := (low + high) / 2
      if cdf.getD mid 0 ≤ u then sampleSearchGo cdf u fuel (mid + 1) high
      else sampleSearchGo cdf u fuel low mid
    else low

/-- `TrainingDataLoader::SampleInputFileIndex`: binary search over
`mCDF[0..numContexts)` starting from `low = 0`, `high = mContexts.size()`,
returning `low - 1u` in `uint32` arithmetic.  `numContexts` iterations are
always sufficient fuel since `high - low` strictly decreases. -/
def SampleInputFileIndex (numContexts : Nat) (cdf : List ℚ) (u : ℚ) : Nat :=
  (sampleSearchGo cdf u numContexts 0 numContexts + (2 ^ 32 - 1)) % 2 ^ 32

lemma getD_mono {cdf : List ℚ} (hmono : List.Pairwise (· ≤ ·) cdf) {i j : Nat}
    (hij : i ≤ j) (hj : j < cdf.length) : cdf.getD i 0 ≤ cdf.getD j 0 := by
  have hi : i < cdf.length := Nat.lt_of_le_of_lt hij hj
  rcases Nat.eq_or_lt_of_le hij with rfl | hlt
  · exact le_refl _
  · have hp := List.pairwise_iff_getElem.mp hmono i j hi hj hlt
    simpa [List.getD_eq_getElem?_getD, List.getElem?_eq_getElem, hi, hj] using hp

/-- Loop invariant of the binary search: everything below `low` is `≤ u`,
everything in `[high, N)` is `> u`, and both stay true of the final `low`. -/
lemma sampleSearchGo_spec (cdf : List ℚ) (u : ℚ) (N : Nat)
    (hmono : List.Pairwise (· ≤ ·) cdf) (hlen : cdf.length = N + 1) :
    ∀ fuel low high, high ≤ N → low ≤ high → high - low ≤ fuel →
    (∀ i, i < low → cdf.getD i 0 ≤ u) →
    (∀ i, high ≤ i → i < N → u < cdf.getD i 0) →
    low ≤ sampleSearchGo cdf u fuel low high ∧
    sampleSearchGo cdf u fuel low high ≤ high ∧
    (∀ i, i < sampleSearchGo cdf u fuel low high → cdf.getD i 0 ≤ u) ∧
    (∀ i, sampleSearchGo cdf u fuel low high ≤ i → i < N →
      u < cdf.getD i 0) := by
  intro fuel
  induction fuel with
  | zero =>
    intro low high hhN hlh hf hlo hhi
    simp only [sampleSearchGo]
    refine ⟨le_refl _, hlh, hlo, ?_⟩
    intro i h1 h2
    exact hhi i (by omega) h2
  | succ fuel ih =>
    intro low high hhN hlh hf hlo hhi
    by_cases hlow : low < high
    · have hmidlt : (low + high) / 2 < high := by omega
      have hmidge : low ≤ (low + high) / 2 := by omega
      have hmidlen : (low + high) / 2 < cdf.length := by omega
      simp only [sampleSearchGo, if_pos hlow]
      by_cases hmidle : cdf.getD ((low + high) / 2) 0 ≤ u
      · rw [if_pos hmidle]
        obtain ⟨ha, hb, hc, hd⟩ := ih ((low + high) / 2 + 1) high hhN (by omega)
          (by omega)
          (by
            intro i hi
            exact le_trans (getD_mono hmono (by omega) hmidlen) hmidle)
          hhi
        exact ⟨by omega, hb, hc, hd⟩
      · rw [if_neg hmidle]
        obtain ⟨ha, hb, hc, hd⟩ := ih low ((low + high) / 2) (by omega) (by omega)
          (by omega) hlo
          (by
            intro i h1 h2
            have hle : cdf.getD ((low + high) / 2) 0 ≤ cdf.getD i 0 :=
              getD_mono hmono h1 (by omega)
            exact lt_of_lt_of_le (lt_of_not_le hmidle) hle)
        exact ⟨ha, by omega, hc, hd⟩
    · simp only [sampleSearchGo, if_neg hlow]
      refine ⟨le_refl _, by omega, hlo, ?_⟩
      intro i h1 h2
      exact hhi i (by omega) h2

/-- C5: on a CDF as `Init` describes it (monotone, `CDF[0] = 0`,
`CDF[numContexts] = 1`, one entry per context plus the leading zero),
`SampleInputFileIndex u` for `u ∈ [0, 1)` returns the largest index `i`
with `CDF[i] ≤ u`; in particular on the normalised CDF {0, 0.1, 0.4, 1} of
files sized 100/300/600 bytes it returns 0 at `u = 0.05` and 2 at
`u = 0.4` and `u = 0.99`. -/
theorem sample_input_file_index_correct :
    (∀ (cdf : List ℚ) (numContexts : Nat) (u : ℚ),
      List.Pairwise (· ≤ ·) cdf →
      cdf.length = numContexts + 1 →
      1 ≤ numContexts → numContexts < 2 ^ 32 →
      cdf.getD 0 0 = 0 → cdf.getD numContexts 0 = 1 →
      0 ≤ u → u < 1 →
      cdf.getD (SampleInputFileIndex numContexts cdf u) 0 ≤ u ∧
      ∀ i, i < cdf.length → cdf.getD i 0 ≤ u →
        i ≤ SampleInputFileIndex numContexts cdf u) ∧
    SampleInputFileIndex 3 [0, 1/10, 4/10, 1] (1/20) = 0 ∧
    SampleInputFileIndex 3 [0, 1/10, 4/10, 1] (4/10) = 2 ∧
    SampleInputFileIndex 3 [0, 1/10, 4/10, 1] (99/100) = 2 := by
  refine ⟨?_, ?_, ?_, ?_⟩
  · intro cdf numContexts u hmono hlen hN1 hN32 h0 hlast hu0 hu1
    obtain ⟨hlo, hhi, hA, hB⟩ := sampleSearchGo_spec cdf u numContexts hmono hlen
      numContexts 0 numContexts (le_refl _) (Nat.zero_le _) (by omega)
      (fun i hi => absurd hi (Nat.not_lt_zero i))
      (fun i h1 h2 => absurd h1 (by omega))
    have hr0pos : 1 ≤ sampleSearchGo cdf u numContexts 0 numContexts := by
      by_contra hr
      have hr0 : sampleSearchGo cdf u numContexts 0 numContexts = 0 := by omega
      have hlt := hB 0 (by omega) (by omega)
      rw [h0] at hlt
      exact absurd hu0 (not_le.mpr hlt)
    have hresult : SampleInputFileIndex numContexts cdf u
        = sampleSearchGo cdf u numContexts 0 numContexts - 1 := by
      unfold SampleInputFileIndex
      have hsplit : sampleSearchGo cdf u numContexts 0 numContexts + (2 ^ 32 - 1)
          = (sampleSearchGo cdf u numContexts 0 numContexts - 1) + 2 ^ 32 := by
        omega
      rw [hsplit, Nat.add_mod_right, Nat.mod_eq_of_lt (by omega)]
    constructor
    · rw [hresult]
      exact hA _ (by omega)
    · intro i hilen hile
      rw [hresult]
      by_cases hiN : i < numContexts
      · by_contra hgt
        have hlt := hB i (by omega) hiN
        exact absurd hile (not_le.mpr hlt)
      · have hiEq : i = numContexts := by omega
        rw [hiEq, hlast] at hile
        exact absurd hile (not_le.mpr hu1)
  · norm_num [SampleInputFileIndex, sampleSearchGo]
  · norm_num [SampleInputFileIndex, sampleSearchGo]
  · norm_num [SampleInputFileIndex, sampleSearchGo]

/-- Witness for C5's general statement at the E6 CDF and `u = 0.05`. -/
theorem sample_input_file_index_correct_witness :
    List.getD [(0 : ℚ), 1/10, 4/10, 1]
      (SampleInputFileIndex 3 [(0 : ℚ), 1/10, 4/10, 1] (1/20)) 0 ≤ (1 : ℚ)/20 := by
  refine (sample_input_file_index_correct.1 [(0 : ℚ), 1/10, 4/10, 1] 3 (1/20)
    ?_ ?_ ?_ ?_ ?_ ?_ ?_ ?_).1
  · norm_num [List.pairwise_cons]
  · norm_num
  · norm_num
  · norm_num
  · norm_num [List.getD]
  · norm_num [List.getD]
  · norm_num
  · norm_num

/-! ## Training-data loader initialisation (`TrainingDataLoader::Init`,
lines 13-71)

A directory scan is a list of `(isOpen, fileSize)` pairs in iteration
order.  Note the source adds `fileSize` to `totalDataSize` **before** the
admission check, so rejected files' bytes enter the normalisation
divisor. -/

/-- `fileStream->IsOpen() && fileSize > sizeof(PositionEntry)` with
`sizeof(PositionEntry) = 32`. -/
def admitFile (f : Bool × Nat) : Bool :=
  f.1 && decide (32 < f.2)

/-- The directory loop of `Init`: accumulate `totalDataSize` over every
file, and push the cumulative total (and count a context) for admitted
files only. -/
def initScan : List (Bool × Nat) → Nat → List ℚ → Nat → Nat × List ℚ × Nat
  | [], totalDataSize, cdf, n => (totalDataSize, cdf, n)
  | f :: fs, totalDataSize, cdf, n =>
    let totalDataSize2 := totalDataSize + f.2
    if admitFile f then initScan fs totalDataSize2 (cdf ++ [(totalDataSize2 : ℚ)]) (n + 1)
    else initScan fs totalDataSize2 cdf n

/-- `TrainingDataLoader::Init`: push 0, scan the directory, and normalise
by the accumulated byte total when it is positive.  Returns
(`!mContexts.empty()`, `mCDF`, `mContexts.size()`). -/
def TrainingDataLoader.Init (files : List (Bool × Nat)) : Bool × List ℚ × Nat :=
  let scan := initScan files 0 [0] 0
  let cdf := if 0 < scan.1 then scan.2.1.map (fun v => v / (scan.1 : ℚ)) else scan.2.1
  (scan.2.2 != 0, cdf, scan.2.2)

/-- Total size of the scanned files. -/
def sumSizes (files : List (Bool × Nat)) : Nat :=
  (files.map (fun f => f.2)).sum

/-- Number of admitted files. -/
def numAdmitted (files : List (Bool × Nat)) : Nat :=
  (files.filter admitFile).length

/-- Whether some file is admitted. -/
def anyAdmitted (files : List (Bool × Nat)) : Bool :=
  files.any admitFile

/-- The cumulative totals pushed for the admitted files when the running
total starts at `t`. -/
def pushList : List (Bool × Nat) → Nat → List ℚ
  | [], _ => []
  | f :: fs, t =>
    if admitFile f then ((t + f.2 : Nat) : ℚ) :: pushList fs (t + f.2)
    else pushList fs (t + f.2)

/-- Bytes of the files scanned after the last admitted file. -/
def trailingRejectedBytes : List (Bool × Nat) → Nat
  | [] => 0
  | f :: fs =>
    if anyAdmitted fs then trailingRejectedBytes fs
    else if admitFile f then sumSizes fs
    else f.2 + trailingRejectedBytes fs

lemma sumSizes_cons (f : Bool × Nat) (fs : List (Bool × Nat)) :
    sumSizes (f :: fs) = f.2 + sumSizes fs := by
  simp [sumSizes]

lemma initScan_eq : ∀ (files : List (Bool × Nat)) (t : Nat) (cdf0 : List ℚ) (n0 : Nat),
    initScan files t cdf0 n0
      = (t + sumSizes files, cdf0 ++ pushList files t, n0 + numAdmitted files) := by
  intro files
  induction files with
  | nil => intro t cdf0 n0; simp [initScan, sumSizes, pushList, numAdmitted]
  | cons f fs ih =>
    intro t cdf0 n0
    by_cases hf : admitFile f
    · rw [initScan, if_pos hf, ih, pushList, if_pos hf, sumSizes_cons]
      simp only [Prod.mk.injEq]
      refine ⟨by omega, by simp, ?_⟩
      simp only [numAdmitted, List.filter_cons, hf, if_pos, List.length_cons]
      omega
    · have hf2 : admitFile f = false := by simpa using hf
      rw [initScan, if_neg hf, ih, pushList, if_neg hf, sumSizes_cons]
      simp only [Prod.mk.injEq]
      refine ⟨by omega, by simp, ?_⟩
      simp [numAdmitted, List.filter_cons, hf2]

lemma pushList_bounds : ∀ (files : List (Bool × Nat)) (t : Nat) (x : ℚ),
    x ∈ pushList files t → (t : ℚ) ≤ x ∧ x ≤ ((t + sumSizes files : Nat) : ℚ) := by
  intro files
  induction files with
  | nil => intro t x hx; simp [pushList] at hx
  | cons f fs ih =>
    intro t x hx
    by_cases hf : admitFile f
    · rw [pushList, if_pos hf] at hx
      rcases List.mem_cons.mp hx with rfl | hx2
      · constructor
        · exact_mod_cast Nat.le_add_right t f.2
        · rw [sumSizes_cons]
          exact_mod_cast by omega
      · obtain ⟨h1, h2⟩ := ih (t + f.2) x hx2
        refine ⟨le_trans (by exact_mod_cast Nat.le_add_right t f.2) h1, ?_⟩
        rw [sumSizes_cons]
        refine le_trans h2 ?_
        exact_mod_cast by omega
    · rw [pushList, if_neg hf] at hx
      obtain ⟨h1, h2⟩ := ih (t + f.2) x hx
      refine ⟨le_trans (by exact_mod_cast Nat.le_add_right t f.2) h1, ?_⟩
      rw [sumSizes_cons]
      refine le_trans h2 ?_
      exact_mod_cast by omega

lemma pushList_chain : ∀ (files : List (Bool × Nat)) (t : Nat) (c : ℚ),
    c ≤ (t : ℚ) → List.Chain' (· ≤ ·) (c :: pushList files t) := by
  intro files
  induction files with
  | nil => intro t c _; simp [pushList]
  | cons f fs ih =>
    intro t c hc
    by_cases hf : admitFile f
    · rw [pushList, if_pos hf]
      rw [List.chain'_cons]
      constructor
      · exact le_trans hc (by exact_mod_cast Nat.le_add_right t f.2)
      · exact ih (t + f.2) _ (le_refl _)
    · rw [pushList, if_neg hf]
      exact ih (t + f.2) c (le_trans hc (by exact_mod_cast Nat.le_add_right t f.2))

lemma pushList_eq_nil_of_not_admitted : ∀ (files : List (Bool × Nat)) (t : Nat),
    anyAdmitted files = false → pushList files t = [] := by
  intro files
  induction files with
  | nil => intro t _; rfl
  | cons f fs ih =>
    intro t hany
    rw [anyAdmitted, List.any_cons, Bool.or_eq_false_iff] at hany
    obtain ⟨hf, hfs⟩ := hany
    rw [pushList, if_neg (by simp [hf])]
    exact ih (t + f.2) hfs

lemma pushList_ne_nil : ∀ (files : List (Bool × Nat)) (t : Nat),
    anyAdmitted files = true → pushList files t ≠ [] := by
  intro files
  induction files with
  | nil => intro t h; simp [anyAdmitted] at h
  | cons f fs ih =>
    intro t hany
    by_cases hf : admitFile f
    · rw [pushList, if_pos hf]
      simp
    · have hf2 : admitFile f = false := by simpa using hf
      rw [anyAdmitted, List.any_cons, hf2, Bool.false_or] at hany
      rw [pushList, if_neg hf]
      exact ih (t + f.2) hany

lemma pushList_getLast : ∀ (files : List (Bool × Nat)) (t : Nat),
    anyAdmitted files = true → trailingRejectedBytes files = 0 →
    (pushList files t).getLast? = some ((t + sumSizes files : Nat) : ℚ) := by
  intro files
  induction files with
  | nil => intro t h; simp [anyAdmitted] at h
  | cons f fs ih =>
    intro t hany htrail
    by_cases hfs : anyAdmitted fs
    · have htrail2 : trailingRejectedBytes fs = 0 := by
        rw [trailingRejectedBytes, if_pos hfs] at htrail
        exact htrail
      by_cases hf : admitFile f
      · rw [pushList, if_pos hf]
        obtain ⟨b, l, hpl⟩ : ∃ b l, pushList fs (t + f.2) = b :: l := by
          cases hp : pushList fs (t + f.2) with
          | nil => exact absurd hp (pushList_ne_nil fs (t + f.2) hfs)
          | cons b l => exact ⟨b, l, rfl⟩
        rw [hpl, List.getLast?_cons_cons, ← hpl, ih (t + f.2) hfs htrail2,
          sumSizes_cons, Nat.add_assoc]
      · rw [pushList, if_neg hf, ih (t + f.2) hfs htrail2, sumSizes_cons,
          Nat.add_assoc]
    · have hfalse : anyAdmitted fs = false := by simpa using hfs
      by_cases hf : admitFile f
      · rw [trailingRejectedBytes, if_neg (by simp [hfalse]), if_pos hf] at htrail
        rw [pushList, if_pos hf, pushList_eq_nil_of_not_admitted fs (t + f.2) hfalse]
        rw [sumSizes_cons, htrail]
        simp
      · have hf2 : admitFile f = false := by simpa using hf
        rw [anyAdmitted, List.any_cons, hf2, Bool.false_or] at hany
        rw [anyAdmitted] at hfalse
        rw [hfalse] at hany
        exact absurd hany (by simp)

lemma anyAdmitted_of_numAdmitted_ne_zero {files : List (Bool × Nat)}
    (h : numAdmitted files ≠ 0) : anyAdmitted files = true := by
  rw [numAdmitted] at h
  have hne : files.filter admitFile ≠ [] := by
    intro hnil
    rw [hnil] at h
    simp at h
  obtain ⟨x, hx⟩ := List.exists_mem_of_ne_nil _ hne
  obtain ⟨hxf, hxa⟩ := List.mem_filter.mp hx
  exact List.any_eq_true.mpr ⟨x, hxf, hxa⟩

lemma sumSizes_pos_of_admitted : ∀ {files : List (Bool × Nat)},
    anyAdmitted files = true → 0 < sumSizes files := by
  intro files
  induction files with
  | nil => intro h; simp [anyAdmitted] at h
  | cons f fs ih =>
    intro hany
    rw [sumSizes_cons]
    by_cases hf : admitFile f
    · rw [admitFile, Bool.and_eq_true, decide_eq_true_eq] at hf
      omega
    · have hf2 : admitFile f = false := by simpa using hf
      rw [anyAdmitted, List.any_cons, hf2, Bool.false_or] at hany
      have := ih (show anyAdmitted fs = true from hany)
      omega

/-- C3 (amended): after `Init` returns true the stored CDF is monotonically
non-decreasing, its first element is 0 and every entry lies in [0, 1]; its
last element equals 1.0 exactly under the proviso that the files scanned
after the last admitted file have zero total size (in particular when no
file was rejected) — because `totalDataSize` also accumulates rejected
files' bytes, a rejected nonzero-size file after the last admitted one makes
the last entry fall short of 1.0. -/
theorem init_cdf_properties (files : List (Bool × Nat))
    (hsuccess : (TrainingDataLoader.Init files).1 = true) :
    List.Chain' (· ≤ ·) (TrainingDataLoader.Init files).2.1 ∧
    (TrainingDataLoader.Init files).2.1.head? = some 0 ∧
    (∀ x ∈ (TrainingDataLoader.Init files).2.1, 0 ≤ x ∧ x ≤ 1) ∧
    (trailingRejectedBytes files = 0 →
      (TrainingDataLoader.Init files).2.1.getLast? = some 1) := by
  have hscan := initScan_eq files 0 [0] 0
  have hn : numAdmitted files ≠ 0 := by
    simp only [TrainingDataLoader.Init, hscan] at hsuccess
    simpa using hsuccess
  have hany : anyAdmitted files = true := anyAdmitted_of_numAdmitted_ne_zero hn
  have htot : 0 < sumSizes files := sumSizes_pos_of_admitted hany
  have hTq : (0 : ℚ) < (sumSizes files : ℚ) := by exact_mod_cast htot
  have hTne : ((sumSizes files : ℚ)) ≠ 0 := ne_of_gt hTq
  have hcdf : (TrainingDataLoader.Init files).2.1
      = ((0 : ℚ) :: pushList files 0).map (fun v => v / (sumSizes files : ℚ)) := by
    simp only [TrainingDataLoader.Init, hscan, Nat.zero_add]
    rw [if_pos htot]
    simp
  refine ⟨?_, ?_, ?_, ?_⟩
  · rw [hcdf]
    have hchain := pushList_chain files 0 0 (by norm_num)
    exact List.chain'_map_of_chain' _
      (fun a b hab => (div_le_div_right hTq).mpr hab) hchain
  · rw [hcdf]
    simp
  · rw [hcdf]
    intro x hx
    obtain ⟨y, hy, rfl⟩ := List.mem_map.mp hx
    rcases List.mem_cons.mp hy with rfl | hy2
    · simp [le_of_lt hTq]
    · obtain ⟨h1, h2⟩ := pushList_bounds files 0 y hy2
      constructor
      · exact div_nonneg (le_trans (by norm_num) h1) (le_of_lt hTq)
      · rw [div_le_one hTq]
        simpa using h2
  · intro htrail
    rw [hcdf]
    obtain ⟨b, l, hpl⟩ : ∃ b l, pushList files 0 = b :: l := by
      cases hp : pushList files 0 with
      | nil => exact absurd hp (pushList_ne_nil files 0 hany)
      | cons b l => exact ⟨b, l, rfl⟩
    rw [List.getLast?_map, hpl, List.getLast?_cons_cons, ← hpl,
      pushList_getLast files 0 hany htrail]
    simp [div_self hTne]

/-- Counterexample to C3 as stated: a directory with an admitted 100-byte
file followed by a rejected 10-byte file (size ≤ 32).  `Init` returns true
but the CDF is [0, 10/11] — its last element is not 1.0 because the
rejected file's bytes entered `totalDataSize` before the admission check. -/
theorem init_cdf_last_counterexample :
    (TrainingDataLoader.Init [(true, 100), (true, 10)]).1 = true ∧
    (TrainingDataLoader.Init [(true, 100), (true, 10)]).2.1 = [0, 10/11] ∧
    ((10 : ℚ)/11) ≠ 1 := by
  refine ⟨?_, ?_, by norm_num⟩
  · norm_num [TrainingDataLoader.Init, initScan, admitFile]
  · norm_num [TrainingDataLoader.Init, initScan, admitFile]

/-- Witness for C3 (amended) on a single admitted file. -/
theorem init_cdf_properties_witness :
    (TrainingDataLoader.Init [(true, 100)]).2.1.head? = some 0 ∧
    (TrainingDataLoader.Init [(true, 100)]).2.1.getLast? = some 1 :=
  ⟨(init_cdf_properties [(true, 100)]
      (by norm_num [TrainingDataLoader.Init, initScan, admitFile])).2.1,
   (init_cdf_properties [(true, 100)]
      (by norm_num [TrainingDataLoader.Init, initScan, admitFile])).2.2.2
     (by norm_num [trailingRejectedBytes, anyAdmitted, admitFile, sumSizes])⟩

end Caissa
